import Mathlib

/-!
Verification development for the tracking / association program in
`test4_check.py`.

The program's floating-point arithmetic is modelled exactly: rational
numbers stand in for the float values wherever the source only adds,
subtracts, multiplies, divides and compares, and real numbers (with
`Real.sqrt`, `Real.exp`, trigonometric functions and `Complex.arg`) model
the library calls `np.sqrt`, `np.exp`, `np.cos`, `np.sin`, `math.atan2`.
Comparisons of square roots performed by the source are embedded as the
equivalent comparisons of the (rational) radicands so that the data-level
pipeline stays executable; the equivalence with the source's square-root
comparisons is proved (`gate_sq_iff`, `argminIdx_map_sqrt`).
-/

open scoped Matrix

/-- A 3-dimensional point (a report position, or a track position). -/
abbrev Vec3 := Fin 3 → ℚ

/-- Squared Euclidean norm of `track - report`: the radicand of
`np.linalg.norm(track - report)` used by the clustering loop (the sum of
the squares of the three components, written out). -/
def normSq (track report : Vec3) : ℚ :=
  (track 0 - report 0) ^ 2 + (track 1 - report 1) ^ 2 + (track 2 - report 2) ^ 2

/-- `chi2_threshold = chi2.ppf(0.95, df=3)`.  Modelled from the spec:
`scipy.stats.chi2` is an external library (not in the sources); the spec
fixes the value as the chi-square 95% quantile for 3 degrees of freedom,
approximately 7.815.  We use the double-precision value scipy returns. -/
def chi2_threshold : ℚ := 7.814727903251179

/-- Minimum of the nonempty list `a :: l` (value semantics of `min` over
a list, used to state what `np.argmin` returns). -/
def listMinNE {α : Type} [LinearOrder α] (a : α) : List α → α
  | [] => a
  | b :: t => min a (listMinNE b t)

/-- First index of a minimal element: the semantics of `np.argmin`
(ties are broken towards the earlier index). -/
def argminIdx {α : Type} [LinearOrder α] : List α → ℕ
  | [] => 0
  | [_] => 0
  | a :: b :: t => if a ≤ listMinNE b t then 0 else argminIdx (b :: t) + 1

/-- The list of squared distances from every track to one report
(the clustering loop's `distances`, before the square root). -/
def sqDistances (tracks : List Vec3) (report : Vec3) : List ℚ :=
  tracks.map fun track => normSq track report

/-- One iteration of the clustering loop of
`perform_clustering_hypothesis_association`: compute the distance of the
report to every track, take `np.argmin`, and accept the nearest track iff
its distance is below `chi2_threshold`.  The source compares
`np.linalg.norm(track - report) < chi2_threshold`; here the equivalent
comparison of squares is used (see `gate_sq_iff` and
`argminIdx_map_sqrt` for the proof that this is the same test). -/
def reportCluster (tracks : List Vec3) (report : Vec3) : Option (List ℕ) :=
  let ds := sqDistances tracks report
  let min_distance_idx := argminIdx ds
  if ds.getD min_distance_idx 0 < chi2_threshold ^ 2 then some [min_distance_idx] else none

/-- The `clusters` list built by the first loop of
`perform_clustering_hypothesis_association`. -/
def clustersOf (tracks : List Vec3) (reports : List Vec3) : List (List ℕ) :=
  reports.filterMap (reportCluster tracks)

/-- `is_valid_hypothesis` from the source: the report indices other than
`-1` are pairwise distinct and at least one is present. -/
def is_valid_hypothesis (hypothesis : List (ℕ × ℤ)) : Bool :=
  let non_zero := (hypothesis.filter fun p => p.2 ≠ -1).map Prod.snd
  (non_zero.length == non_zero.dedup.length) && decide (0 < non_zero.length)

/-- The candidate hypothesis built for one value `count` of the counter:
one `(track_idx, report_idx)` pair per cluster track, where
`report_idx = (count // (R+1) ** track_idx) % (R+1) - 1` and `R` is the
number of reports (`base = len(reports) + 1` in the source). -/
def genCandidate (cluster : List ℕ) (numReports : ℕ) (count : ℕ) : List (ℕ × ℤ) :=
  cluster.map fun track_idx =>
    (track_idx, (((count / (numReports + 1) ^ track_idx) % (numReports + 1) : ℕ) : ℤ) - 1)

/-- All candidate hypotheses enumerated for one cluster: `count` ranges
over `range(base ** num_tracks)`. -/
def genCandidates (cluster : List ℕ) (numReports : ℕ) : List (List (ℕ × ℤ)) :=
  (List.range ((numReports + 1) ^ cluster.length)).map (genCandidate cluster numReports)

/-- The hypotheses the generator retains for one cluster: the candidates
that pass `is_valid_hypothesis` (the source appends a candidate to
`hypotheses` exactly when the check passes). -/
def genHypotheses (cluster : List ℕ) (numReports : ℕ) : List (List (ℕ × ℤ)) :=
  (genCandidates cluster numReports).filter is_valid_hypothesis

/-- The number whose base-`base` digits are the entries of `ds` (least
significant first): the inverse of digit extraction, used to show which
counter values realize which digit combinations. -/
def encodeDigits (base : ℕ) : List ℕ → ℕ
  | [] => 0
  | d :: ds => d + base * encodeDigits base ds

/-- `mahalanobis_distance` from the source computes
`np.sqrt(delta @ cov_inv @ delta)` with `delta = y[:3] - x[:3]`; this is
the (rational) radicand `delta @ cov_inv @ delta`. -/
def mahalanobisSqQ (x y : Vec3) (cov_inv : Matrix (Fin 3) (Fin 3) ℚ) : ℚ :=
  let delta : Fin 3 → ℚ := fun i => y i - x i
  (delta ᵥ* cov_inv) ⬝ᵥ delta

/-- `mahalanobis_distance(x, y, cov_inv)` from the source. -/
noncomputable def mahalanobis_distance (x y : Vec3) (cov_inv : Matrix (Fin 3) (Fin 3) ℚ) : ℝ :=
  Real.sqrt ((mahalanobisSqQ x y cov_inv : ℚ) : ℝ)

/-- The inner loop of `calculate_probabilities`: starting from
`prob = 1.0`, multiply by `np.exp(-0.5 * distance ** 2)` for every
`(track_idx, report_idx)` pair of the hypothesis whose `report_idx` is
not `-1`. -/
noncomputable def hypothesisProb (tracks reports : List Vec3)
    (cov_inv : Matrix (Fin 3) (Fin 3) ℚ) (hypothesis : List (ℕ × ℤ)) : ℝ :=
  hypothesis.foldl
    (fun prob p =>
      if p.2 ≠ -1 then
        prob * Real.exp (-0.5 *
          mahalanobis_distance (tracks.getD p.1 0) (reports.getD p.2.toNat 0) cov_inv ^ 2)
      else prob)
    1

/-- `calculate_probabilities` from the source: score every hypothesis,
then divide each score by the sum of all scores (`probabilities /=
probabilities.sum()`, with no guard on the sum). -/
noncomputable def calculate_probabilities (hypotheses : List (List (ℕ × ℤ)))
    (tracks reports : List Vec3) (cov_inv : Matrix (Fin 3) (Fin 3) ℚ) : List ℝ :=
  let probabilities := hypotheses.map (hypothesisProb tracks reports cov_inv)
  probabilities.map fun p => p / probabilities.sum

/-- `find_max_associations` from the source: for each report keep the
track of the highest-probability hypothesis in which the report appears
assigned, starting from association `-1` and probability `0.0`. -/
noncomputable def find_max_associations (hypotheses : List (List (ℕ × ℤ)))
    (probabilities : List ℝ) (reports : List Vec3) : List ℤ × List ℝ :=
  (hypotheses.zip probabilities).foldl
    (fun acc hp =>
      hp.1.foldl
        (fun acc2 p =>
          if p.2 ≠ -1 ∧ acc2.2.getD p.2.toNat 0 < hp.2 then
            (acc2.1.set p.2.toNat (p.1 : ℤ), acc2.2.set p.2.toNat hp.2)
          else acc2)
        acc)
    (List.replicate reports.length (-1), List.replicate reports.length 0)

/-- The values computed by `perform_clustering_hypothesis_association`
(the source prints them instead of returning them). -/
structure AssocResult where
  clusters : List (List ℕ)
  hypotheses : List (List (ℕ × ℤ))
  probabilities : List ℝ
  max_associations : List ℤ
  max_probs : List ℝ

/-- `perform_clustering_hypothesis_association` from the source:
clustering, per-cluster hypothesis enumeration (appended in order),
scoring and per-report association. -/
noncomputable def perform_clustering_hypothesis_association
    (tracks reports : List Vec3) (cov_inv : Matrix (Fin 3) (Fin 3) ℚ) : AssocResult :=
  let clusters := clustersOf tracks reports
  let hypotheses := (clusters.map fun cluster => genHypotheses cluster reports.length).flatten
  let probabilities := calculate_probabilities hypotheses tracks reports cov_inv
  let mm := find_max_associations hypotheses probabilities reports
  ⟨clusters, hypotheses, probabilities, mm.1, mm.2⟩

/-- The filter state of class `CVFilter`: state vector `Sf`, covariance
`Pf`, predicted state `Sp`, plant noise scalar, measurement matrix `H`,
measurement noise `R`, measurement time and current measurement `Z`. -/
structure CVFilter where
  Sf : Matrix (Fin 6) (Fin 1) ℚ
  Pf : Matrix (Fin 6) (Fin 6) ℚ
  Sp : Matrix (Fin 6) (Fin 1) ℚ
  plant_noise : ℚ
  H : Matrix (Fin 3) (Fin 6) ℚ
  R : Matrix (Fin 3) (Fin 3) ℚ
  Meas_Time : ℚ
  Z : Matrix (Fin 3) (Fin 1) ℚ

/-- `np.eye(3, 6)`: ones on the main diagonal, zeros elsewhere. -/
def eye36 : Matrix (Fin 3) (Fin 6) ℚ :=
  Matrix.of fun i j => if (i : ℕ) = (j : ℕ) then 1 else 0

/-- `CVFilter.__init__`: zero state, identity covariance, plant noise 20,
`H = np.eye(3, 6)`, `R = np.eye(3)`. -/
def CVFilter.init : CVFilter :=
  { Sf := 0, Pf := 1, Sp := 0, plant_noise := 20, H := eye36, R := 1, Meas_Time := 0, Z := 0 }

/-- The state transition matrix of `predict_step`: `np.eye(6)` with
`Phi[0, 3] = Phi[1, 4] = Phi[2, 5] = dt`. -/
def phiMat (dt : ℚ) : Matrix (Fin 6) (Fin 6) ℚ :=
  Matrix.of fun i j => if i = j then 1 else if (j : ℕ) = (i : ℕ) + 3 then dt else 0

/-- `CVFilter.predict_step(current_time)`: `dt = current_time -
Meas_Time`, `Sp = Phi @ Sf`, `Pf = Phi @ Pf @ Phi.T + Q` with
`Q = np.eye(6) * plant_noise`.  `Sf` and `Meas_Time` are not changed. -/
def CVFilter.predict_step (f : CVFilter) (current_time : ℚ) : CVFilter :=
  let dt := current_time - f.Meas_Time
  let Phi := phiMat dt
  let Q : Matrix (Fin 6) (Fin 6) ℚ := f.plant_noise • 1
  { f with Sp := Phi * f.Sf, Pf := Phi * f.Pf * Phiᵀ + Q }

/-- `np.linalg.inv` on a 3×3 rational matrix, in closed form
(reciprocal of the determinant times the adjugate; equal to Mathlib's
`Matrix.inv`, see `inv3_eq_inv`). -/
def inv3 (A : Matrix (Fin 3) (Fin 3) ℚ) : Matrix (Fin 3) (Fin 3) ℚ :=
  A.det⁻¹ • A.adjugate

/-- `CVFilter.update_step()`: innovation `Inn = Z - H @ Sf` (from the
state vector `Sf`, not from the predicted `Sp`), `S = H @ (Pf @ H.T) +
R`, `K = (Pf @ H.T) @ inv(S)`, `Sf += K @ Inn`,
`Pf = (eye(6) - K @ H) @ Pf`. -/
def CVFilter.update_step (f : CVFilter) : CVFilter :=
  let Inn := f.Z - f.H * f.Sf
  let S := f.H * (f.Pf * f.Hᵀ) + f.R
  let K := f.Pf * f.Hᵀ * inv3 S
  { f with Sf := f.Sf + K * Inn, Pf := (1 - K * f.H) * f.Pf }

/-- Symmetric and positive semi-definite, the invariant claimed for the
covariance matrix. -/
def symmPSD (P : Matrix (Fin 6) (Fin 6) ℚ) : Prop :=
  Pᵀ = P ∧ ∀ x : Fin 6 → ℚ, 0 ≤ x ⬝ᵥ P *ᵥ x

/-- `sph2cart(az, el, r)` from the source (angles in degrees; note the
compass convention: `x` uses `sin(az)`, `y` uses `cos(az)`). -/
noncomputable def sph2cart (az el r : ℝ) : ℝ × ℝ × ℝ :=
  (r * Real.cos (el * Real.pi / 180) * Real.sin (az * Real.pi / 180),
   r * Real.cos (el * Real.pi / 180) * Real.cos (az * Real.pi / 180),
   r * Real.sin (el * Real.pi / 180))

/-- `math.atan2(y, x)`, modelled as the argument of the complex number
`x + y i` (range `(-pi, pi]`, `atan2(0, 0) = 0`, matching the C
convention Python inherits except at the sign of zero, which has no
rational counterpart). -/
noncomputable def atan2 (y x : ℝ) : ℝ :=
  Complex.arg (x + y * Complex.I)

/-- `cart2sph(x, y, z)` from the source, returning `(r, az, el)` in
degrees with the negative-azimuth branch adding 360. -/
noncomputable def cart2sph (x y z : ℝ) : ℝ × ℝ × ℝ :=
  let r := Real.sqrt (x ^ 2 + y ^ 2 + z ^ 2)
  let el := atan2 z (Real.sqrt (x ^ 2 + y ^ 2)) * 180 / Real.pi
  let az0 := atan2 y x * 180 / Real.pi
  let az := if az0 < 0 then az0 + 360 else az0
  (r, az, el)

theorem normSq_nonneg (track report : Vec3) : 0 ≤ normSq track report := by
  have h0 := sq_nonneg (track 0 - report 0)
  have h1 := sq_nonneg (track 1 - report 1)
  have h2 := sq_nonneg (track 2 - report 2)
  unfold normSq
  linarith

theorem listMinNE_le {α : Type} [LinearOrder α] (a : α) (l : List α) :
    ∀ x ∈ a :: l, listMinNE a l ≤ x := by
  induction l generalizing a with
  | nil => intro x hx; simp at hx; simp [listMinNE, hx]
  | cons b t ih =>
    intro x hx
    rcases List.mem_cons.mp hx with h | h
    · simpa [listMinNE, h] using Or.inl (le_refl x)
    · exact le_trans (min_le_right _ _) (ih b x h)

theorem listMinNE_mem {α : Type} [LinearOrder α] (a : α) (l : List α) :
    listMinNE a l ∈ a :: l := by
  induction l generalizing a with
  | nil => simp [listMinNE]
  | cons b t ih =>
    rcases le_total a (listMinNE b t) with h | h
    · simp [listMinNE, min_eq_left h]
    · have := ih b
      simp only [listMinNE, min_eq_right h]
      exact List.mem_cons_of_mem _ this

theorem argminIdx_lt_length {α : Type} [LinearOrder α] (l : List α) (h : l ≠ []) :
    argminIdx l < l.length := by
  induction l with
  | nil => simp at h
  | cons a t ih =>
    cases t with
    | nil => simp [argminIdx]
    | cons b u =>
      by_cases hle : a ≤ listMinNE b u
      · simp [argminIdx, hle]
      · have h2 := ih (by simp)
        simp only [List.length_cons] at h2 ⊢
        simp only [argminIdx, if_neg hle]
        omega

theorem argminIdx_getD {α : Type} [LinearOrder α] (a : α) (l : List α) (d : α) :
    (a :: l).getD (argminIdx (a :: l)) d = listMinNE a l := by
  induction l generalizing a with
  | nil => simp [argminIdx, listMinNE]
  | cons b t ih =>
    by_cases hle : a ≤ listMinNE b t
    · simp [argminIdx, hle, listMinNE, min_eq_left hle]
    · have h2 : listMinNE b t ≤ a := le_of_not_le hle
      simp only [argminIdx, if_neg hle, listMinNE, min_eq_right h2]
      simpa using ih b

theorem sqrt_cast_min (a b : ℚ) :
    Real.sqrt ((min a b : ℚ) : ℝ) = min (Real.sqrt (a : ℝ)) (Real.sqrt (b : ℝ)) := by
  rcases le_total a b with h | h
  · rw [min_eq_left h, min_eq_left (Real.sqrt_le_sqrt (by exact_mod_cast h))]
  · rw [min_eq_right h, min_eq_right (Real.sqrt_le_sqrt (by exact_mod_cast h))]

theorem listMinNE_map_sqrt (a : ℚ) (l : List ℚ) :
    listMinNE (Real.sqrt (a : ℝ)) (l.map fun q : ℚ => Real.sqrt (q : ℝ))
      = Real.sqrt ((listMinNE a l : ℚ) : ℝ) := by
  induction l generalizing a with
  | nil => simp [listMinNE]
  | cons b t ih =>
    simp only [List.map_cons, listMinNE, ih b]
    rw [sqrt_cast_min]

/-- `np.argmin` applied to the square roots of a list of nonnegative
rationals picks the same index as `np.argmin` applied to the list itself:
the squared-distance comparison used in `reportCluster` is faithful to the
source's comparison of euclidean norms. -/
theorem argminIdx_map_sqrt (l : List ℚ) (hl : ∀ x ∈ l, 0 ≤ x) :
    argminIdx (l.map fun q : ℚ => Real.sqrt (q : ℝ)) = argminIdx l := by
  induction l with
  | nil => rfl
  | cons a t ih =>
    cases t with
    | nil => rfl
    | cons b u =>
      have hmin : (0 : ℚ) ≤ listMinNE b u :=
        hl _ (List.mem_cons_of_mem a (listMinNE_mem b u))
      have hcond : (Real.sqrt (a : ℝ) ≤
          listMinNE (Real.sqrt (b : ℝ)) (u.map fun q : ℚ => Real.sqrt (q : ℝ))) ↔
          a ≤ listMinNE b u := by
        rw [listMinNE_map_sqrt b u, Real.sqrt_le_sqrt_iff (by exact_mod_cast hmin)]
        exact_mod_cast Iff.rfl
      have ih2 := ih (fun x hx => hl x (List.mem_cons_of_mem a hx))
      by_cases h : a ≤ listMinNE b u
      · simp only [List.map_cons, argminIdx, if_pos h, if_pos (hcond.mpr h)]
      · simp only [List.map_cons, argminIdx, if_neg h, if_neg (fun hc => h (hcond.mp hc))]
        simp only [List.map_cons] at ih2 ⊢
        omega

theorem chi2_cast_pos : (0 : ℝ) < ((chi2_threshold : ℚ) : ℝ) := by
  norm_num [chi2_threshold]

/-- The squared-gate comparison is equivalent to the source's comparison
`np.linalg.norm(track - report) < chi2_threshold` of the euclidean norm. -/
theorem gate_sq_iff (q : ℚ) :
    q < chi2_threshold ^ 2 ↔ Real.sqrt ((q : ℚ) : ℝ) < ((chi2_threshold : ℚ) : ℝ) := by
  rw [Real.sqrt_lt' chi2_cast_pos]
  constructor
  · intro h
    calc ((q : ℚ) : ℝ) < ((chi2_threshold ^ 2 : ℚ) : ℝ) := by exact_mod_cast h
    _ = ((chi2_threshold : ℚ) : ℝ) ^ 2 := by push_cast; ring
  · intro h
    have : ((q : ℚ) : ℝ) < ((chi2_threshold ^ 2 : ℚ) : ℝ) := by
      calc ((q : ℚ) : ℝ) < ((chi2_threshold : ℚ) : ℝ) ^ 2 := h
      _ = ((chi2_threshold ^ 2 : ℚ) : ℝ) := by push_cast; ring
    exact_mod_cast this

theorem sqDistances_nonneg (tracks : List Vec3) (report : Vec3) :
    ∀ x ∈ sqDistances tracks report, 0 ≤ x := by
  intro x hx
  obtain ⟨t, _, rfl⟩ := List.mem_map.mp hx
  exact normSq_nonneg t report

/-- C1 (amended): a report's cluster is computed by `reportCluster`; the
index placed in the cluster is `np.argmin` of the distances (equal for
the squared list and the square-rooted list the source uses); the pair is
accepted iff the euclidean distance itself -- not its square -- is below
`chi2_threshold`; the accepted track is a nearest one; and a report
whose distance to every track is at or above the gate forms no cluster. -/
theorem clustering_gate_characterization (tracks : List Vec3) (report : Vec3)
    (h : tracks ≠ []) :
    (∀ reports : List Vec3, clustersOf tracks reports = reports.filterMap (reportCluster tracks))
    ∧ argminIdx ((sqDistances tracks report).map fun q : ℚ => Real.sqrt (q : ℝ))
        = argminIdx (sqDistances tracks report)
    ∧ (reportCluster tracks report = some [argminIdx (sqDistances tracks report)]
        ↔ Real.sqrt
            (((sqDistances tracks report).getD (argminIdx (sqDistances tracks report)) 0 : ℚ) : ℝ)
            < ((chi2_threshold : ℚ) : ℝ))
    ∧ (∀ t ∈ tracks,
        (sqDistances tracks report).getD (argminIdx (sqDistances tracks report)) 0
          ≤ normSq t report)
    ∧ ((∀ t ∈ tracks,
          ¬ Real.sqrt ((normSq t report : ℚ) : ℝ) < ((chi2_threshold : ℚ) : ℝ))
        → reportCluster tracks report = none) := by
  cases tracks with
  | nil => exact absurd rfl h
  | cons t0 rest =>
    have hds : sqDistances (t0 :: rest) report
        = normSq t0 report :: sqDistances rest report := by
      simp [sqDistances]
    have hgetD : (sqDistances (t0 :: rest) report).getD
        (argminIdx (sqDistances (t0 :: rest) report)) 0
        = listMinNE (normSq t0 report) (sqDistances rest report) := by
      rw [hds, argminIdx_getD]
    refine ⟨fun reports => rfl, argminIdx_map_sqrt _ (sqDistances_nonneg _ _), ?_, ?_, ?_⟩
    · rw [hgetD, ← gate_sq_iff]
      constructor
      · intro hsome
        by_contra hc
        simp only [reportCluster, hds, argminIdx_getD, if_neg hc] at hsome
        · exact Option.noConfusion hsome
      · intro hc
        simp only [reportCluster]
        rw [hds, argminIdx_getD, if_pos hc, ← hds]
    · intro t ht
      rw [hgetD]
      have : normSq t report ∈ normSq t0 report :: sqDistances rest report := by
        rw [← hds]
        exact List.mem_map.mpr ⟨t, ht, rfl⟩
      exact listMinNE_le _ _ _ this
    · intro hall
      have hminmem := listMinNE_mem (normSq t0 report) (sqDistances rest report)
      rw [← hds] at hminmem
      obtain ⟨t, ht, heq⟩ := List.mem_map.mp hminmem
      have hnot : ¬ (listMinNE (normSq t0 report) (sqDistances rest report)
          < chi2_threshold ^ 2) := by
        rw [gate_sq_iff, ← heq]
        exact hall t ht
      simp only [reportCluster]
      rw [hds, argminIdx_getD, if_neg hnot]

/-- C1 witness: the characterization applied to one track at the origin
and the report `(1, 1, 1)`. -/
theorem clustering_gate_characterization_witness :
    ([(fun _ => 0 : Vec3)] ≠ ([] : List Vec3))
    ∧ argminIdx ((sqDistances [fun _ => 0] ![1, 1, 1]).map fun q : ℚ => Real.sqrt (q : ℝ))
        = argminIdx (sqDistances [fun _ => 0] ![1, 1, 1]) :=
  ⟨by simp, (clustering_gate_characterization [fun _ => 0] ![1, 1, 1] (by simp)).2.1⟩

/-- C1 counterexample: with one track at the origin and the single report
`(3, 0, 0)`, the squared Mahalanobis distance (identity inverse
covariance, hence the squared euclidean distance) is `9`, which is *not*
below the chi-square gate `7.8147...`; the claim would therefore form no
cluster, but the code accepts the pair (it compares the unsquared
distance `3` with the gate) and produces the cluster `[0]`. -/
theorem clustering_gate_squared_counterexample :
    clustersOf [fun _ => 0] [![3, 0, 0]] = [[0]]
    ∧ mahalanobisSqQ (fun _ => 0) ![3, 0, 0] 1 = normSq (fun _ => 0) ![3, 0, 0]
    ∧ ¬ (normSq (fun _ => 0) ![3, 0, 0] < chi2_threshold) := by
  refine ⟨?_, ?_, ?_⟩
  · simp only [clustersOf, reportCluster, sqDistances, List.filterMap, List.map, normSq,
      argminIdx, chi2_threshold]
    norm_num
  · simp only [mahalanobisSqQ, normSq, Matrix.vecMul, Matrix.dotProduct, Matrix.one_apply,
      Fin.sum_univ_three]
    norm_num
  · simp only [normSq, chi2_threshold]
    norm_num

theorem encodeDigits_lt (base : ℕ) (hb : 0 < base) :
    ∀ ds : List ℕ, (∀ d ∈ ds, d < base) → encodeDigits base ds < base ^ ds.length := by
  intro ds
  induction ds with
  | nil =>
    intro _
    simpa [encodeDigits] using hb
  | cons d t ih =>
    intro h
    have hd : d < base := h d (by simp)
    have ht : encodeDigits base t < base ^ t.length := ih fun x hx => h x (by simp [hx])
    have h1 : d + base * encodeDigits base t < base * (encodeDigits base t + 1) := by
      have : base * (encodeDigits base t + 1) = base * encodeDigits base t + base := by ring
      omega
    have h2 : base * (encodeDigits base t + 1) ≤ base * base ^ t.length :=
      Nat.mul_le_mul_left base ht
    have h3 : base * base ^ t.length = base ^ (t.length + 1) := (pow_succ' base t.length).symm
    simp only [encodeDigits, List.length_cons]
    omega

theorem encodeDigits_digit (base : ℕ) (hb : 0 < base) :
    ∀ ds : List ℕ, (∀ d ∈ ds, d < base) →
      ∀ t, t < ds.length → encodeDigits base ds / base ^ t % base = ds.getD t 0 := by
  intro ds
  induction ds with
  | nil =>
    intro _ t ht
    simp at ht
  | cons d u ih =>
    intro h t ht
    have hd : d < base := h d (by simp)
    cases t with
    | zero =>
      simp only [encodeDigits, pow_zero, Nat.div_one, List.getD_cons_zero]
      rw [Nat.add_mul_mod_self_left]
      exact Nat.mod_eq_of_lt hd
    | succ t =>
      have hrec := ih (fun x hx => h x (by simp [hx])) t (by simpa using ht)
      have hdiv : (d + base * encodeDigits base u) / base ^ (t + 1)
          = encodeDigits base u / base ^ t := by
        rw [pow_succ' base t, ← Nat.div_div_eq_div_mul]
        congr 1
        rw [Nat.add_mul_div_left d _ hb, Nat.div_eq_of_lt hd]
        omega
      simp only [encodeDigits, List.getD_cons_succ]
      rw [hdiv, hrec]

theorem digits_unique (base : ℕ) (hb : 0 < base) :
    ∀ N a b : ℕ, a < base ^ N → b < base ^ N →
      (∀ t, t < N → a / base ^ t % base = b / base ^ t % base) → a = b := by
  intro N
  induction N with
  | zero =>
    intro a b ha hb2 _
    simp only [pow_zero, Nat.lt_one_iff] at ha hb2
    omega
  | succ N ih =>
    intro a b ha hb2 hdig
    have h0 := hdig 0 (by omega)
    simp only [pow_zero, Nat.div_one] at h0
    have hdivlt : ∀ c : ℕ, c < base ^ (N + 1) → c / base < base ^ N := by
      intro c hc
      rw [Nat.div_lt_iff_lt_mul hb]
      calc c < base ^ (N + 1) := hc
      _ = base ^ N * base := pow_succ base N
    have hquot : a / base = b / base := by
      apply ih _ _ (hdivlt a ha) (hdivlt b hb2)
      intro t htN
      have hstep : ∀ c : ℕ, c / base / base ^ t = c / base ^ (t + 1) := by
        intro c
        rw [Nat.div_div_eq_div_mul, ← pow_succ' base t]
      rw [hstep a, hstep b]
      exact hdig (t + 1) (by omega)
    have hamod := Nat.div_add_mod a base
    have hbmod := Nat.div_add_mod b base
    rw [hquot] at hamod
    omega

theorem genCandidate_range_eq_iff (N R : ℕ) (count : ℕ) (ds : List ℕ)
    (hds : ds.length = N) :
    genCandidate (List.range N) R count
        = List.zipWith (fun (t : ℕ) (d : ℕ) => (t, (d : ℤ) - 1)) (List.range N) ds
      ↔ ∀ t, t < N → count / (R + 1) ^ t % (R + 1) = ds.getD t 0 := by
  constructor
  · intro heq t htN
    have hcg := congrArg (fun l => l.getD t ((0 : ℕ), (0 : ℤ))) heq
    simp only [genCandidate] at hcg
    rw [List.getD_eq_getElem _ _ (by simp [htN]),
        List.getD_eq_getElem _ _ (by rw [List.length_zipWith, List.length_range, hds]; omega)]
      at hcg
    simp only [List.getElem_map, List.getElem_range, List.getElem_zipWith] at hcg
    have h3 := ((Prod.mk.injEq _ _ _ _).mp hcg).2
    have hlt : t < ds.length := by omega
    have h4 : ds[t] = ds.getD t 0 := (List.getD_eq_getElem ds 0 hlt).symm
    omega
  · intro hdig
    apply List.ext_getElem
    · simp [genCandidate, List.length_zipWith, hds]
    · intro i h1 h2
      have hiN : i < N := by
        simpa [genCandidate] using h1
      simp only [genCandidate, List.getElem_map, List.getElem_range, List.getElem_zipWith]
      have hlt : i < ds.length := by omega
      have h4 : ds[i] = ds.getD i 0 := (List.getD_eq_getElem ds 0 hlt).symm
      rw [Prod.mk.injEq]
      refine ⟨rfl, ?_⟩
      rw [hdig i hiN, h4]

theorem mixed_radix_range (N R : ℕ) (ds : List ℕ) (hds : ds.length = N)
    (hbound : ∀ d ∈ ds, d ≤ R) :
    ∃! count : ℕ, count < (R + 1) ^ N ∧
      genCandidate (List.range N) R count
        = List.zipWith (fun (t : ℕ) (d : ℕ) => (t, (d : ℤ) - 1)) (List.range N) ds := by
  have hb : 0 < R + 1 := by omega
  have hlt : ∀ d ∈ ds, d < R + 1 := fun d hd => by
    have := hbound d hd
    omega
  have hcb : encodeDigits (R + 1) ds < (R + 1) ^ N := by
    have := encodeDigits_lt (R + 1) hb ds hlt
    rwa [hds] at this
  refine ⟨encodeDigits (R + 1) ds, ⟨hcb, ?_⟩, ?_⟩
  · rw [genCandidate_range_eq_iff N R _ ds hds]
    intro t htN
    exact encodeDigits_digit (R + 1) hb ds hlt t (by omega)
  · intro y hy
    obtain ⟨hylt, hyeq⟩ := hy
    rw [genCandidate_range_eq_iff N R y ds hds] at hyeq
    refine digits_unique (R + 1) hb N y _ hylt hcb ?_
    intro t htN
    rw [hyeq t htN, encodeDigits_digit (R + 1) hb ds hlt t (by omega)]

theorem chi2_sq_pos : (0 : ℚ) < chi2_threshold ^ 2 := by
  norm_num [chi2_threshold]

/-- C2 (amended): the generator iterates `count` over `(R+1)^N` values
(`N` the cluster size); each count yields one candidate whose entry for
track `t` comes from the digit of `count` at position `t` -- the track's
*global index*, not its position in the cluster; for the cluster
`[0, ..., N-1]` (in particular the cluster `[0]` the program produces
when the nearest track is track 0) every digit combination is realized by
exactly one counter value, digit `0` meaning unassigned and digit `d+1`
meaning report `d`. -/
theorem hypothesis_enumeration_mixed_radix (R : ℕ) :
    (∀ cluster : List ℕ, (genCandidates cluster R).length = (R + 1) ^ cluster.length)
    ∧ (∀ (cluster : List ℕ) (count : ℕ), genCandidate cluster R count
        = cluster.map fun track_idx =>
            (track_idx, (((count / (R + 1) ^ track_idx) % (R + 1) : ℕ) : ℤ) - 1))
    ∧ ∀ N : ℕ, ∀ ds : List ℕ, ds.length = N → (∀ d ∈ ds, d ≤ R) →
        ∃! count : ℕ, count < (R + 1) ^ N ∧
          genCandidate (List.range N) R count
            = List.zipWith (fun (t : ℕ) (d : ℕ) => (t, (d : ℤ) - 1)) (List.range N) ds := by
  refine ⟨?_, fun cluster count => rfl, fun N ds hds hbound => mixed_radix_range N R ds hds hbound⟩
  intro cluster
  simp [genCandidates]

/-- C2 witness: for one track (cluster `[0]` extended to `range 1`) and
one report, the digit combination `[1]` (assign report 0) is realized by
exactly one counter value. -/
theorem hypothesis_enumeration_mixed_radix_witness :
    ([(1 : ℕ)].length = 1)
    ∧ (∀ d ∈ [(1 : ℕ)], d ≤ 1)
    ∧ (∃! count : ℕ, count < (1 + 1) ^ 1 ∧
        genCandidate (List.range 1) 1 count
          = List.zipWith (fun (t : ℕ) (d : ℕ) => (t, (d : ℤ) - 1)) (List.range 1) [1]) :=
  ⟨by decide, by decide,
    (hypothesis_enumeration_mixed_radix 1).2.2 1 [1] (by decide) (by decide)⟩

/-- C2 counterexample: for the cluster `[1]` with one report (`R = 1`,
`N = 1`), the claimed per-cluster-track mixed-radix enumeration would
realize the digit combination `[1]` (track 1 assigned report 0) in
exactly one of the `(R+1)^N = 2` candidates; the code instead extracts
the digit at position `track_idx = 1` of a counter that only reaches
`1`, so both candidates are `[(1, -1)]` and the assigning combination is
never produced. -/
theorem hypothesis_enumeration_counterexample :
    (genCandidates [1] 1).length = (1 + 1) ^ 1
    ∧ genCandidates [1] 1 = [[(1, -1)], [(1, -1)]]
    ∧ [((1 : ℕ), (0 : ℤ))] ∉ genCandidates [1] 1 := by
  refine ⟨by decide, by decide, by decide⟩

/-- C7: every hypothesis the generator retains has at least one track
assigned a report, and no two of its assigned entries share a report
index. -/
theorem retained_hypotheses_valid (cluster : List ℕ) (numReports : ℕ)
    (h : List (ℕ × ℤ)) (hmem : h ∈ genHypotheses cluster numReports) :
    (∃ p ∈ h, p.2 ≠ -1)
    ∧ ((h.filter fun p => p.2 ≠ -1).map Prod.snd).Nodup := by
  have hval : is_valid_hypothesis h = true := (List.mem_filter.mp hmem).2
  unfold is_valid_hypothesis at hval
  simp only [Bool.and_eq_true, beq_iff_eq, decide_eq_true_eq] at hval
  obtain ⟨hlen, hpos⟩ := hval
  constructor
  · have hne : h.filter (fun p => p.2 ≠ -1) ≠ [] := by
      intro hnil
      rw [hnil] at hpos
      simp at hpos
    obtain ⟨p, hp⟩ := List.exists_mem_of_ne_nil _ hne
    refine ⟨p, List.mem_of_mem_filter hp, ?_⟩
    have := List.of_mem_filter hp
    simpa using this
  · have hsub := List.dedup_sublist ((h.filter fun p => p.2 ≠ -1).map Prod.snd)
    have heq := hsub.eq_of_length hlen.symm
    exact heq ▸ List.nodup_dedup _

/-- C7 witness: the hypothesis `[(0, 0)]` retained for cluster `[0]` with
one report satisfies the invariant. -/
theorem retained_hypotheses_valid_witness :
    ([((0 : ℕ), (0 : ℤ))] ∈ genHypotheses [0] 1)
    ∧ ∃ p ∈ [((0 : ℕ), (0 : ℤ))], p.2 ≠ -1 :=
  ⟨by decide, (retained_hypotheses_valid [0] 1 _ (by decide)).1⟩

/-- C10: every cluster produced by the clustering stage is a singleton
`[t]`; and for a singleton cluster `[t]` with `t ≥ 1` and a report pool
of size `R ≥ 1`, every counter value `count < R + 1` extracts digit
`(count / (R+1)^t) % (R+1) = 0`, so every candidate is all-unassigned
and the generator retains no hypothesis at all. -/
theorem clusters_singleton_and_vanishing_hypotheses :
    (∀ tracks reports : List Vec3, ∀ c ∈ clustersOf tracks reports, ∃ t, c = [t])
    ∧ ∀ t R : ℕ, 1 ≤ t → 1 ≤ R →
        (∀ count < R + 1, count / (R + 1) ^ t % (R + 1) = 0)
        ∧ genHypotheses [t] R = [] := by
  constructor
  · intro tracks reports c hc
    obtain ⟨r, hrmem, hr⟩ := List.mem_filterMap.mp hc
    simp only [reportCluster] at hr
    split at hr
    · exact ⟨argminIdx (sqDistances tracks r), (Option.some_inj.mp hr).symm⟩
    · exact absurd hr (by simp)
  · intro t R ht hR
    have hdig : ∀ count < R + 1, count / (R + 1) ^ t % (R + 1) = 0 := by
      intro count hc
      have hle : R + 1 ≤ (R + 1) ^ t := by
        calc R + 1 = (R + 1) ^ 1 := (pow_one _).symm
        _ ≤ (R + 1) ^ t := Nat.pow_le_pow_right (by omega) ht
      have hz : count / (R + 1) ^ t = 0 := Nat.div_eq_of_lt (lt_of_lt_of_le hc hle)
      simp [hz]
    refine ⟨hdig, ?_⟩
    unfold genHypotheses
    rw [List.filter_eq_nil_iff]
    intro cand hcand
    obtain ⟨count, hcount, rfl⟩ := List.mem_map.mp hcand
    rw [List.mem_range] at hcount
    have hcount1 : count < R + 1 := by
      simpa [pow_one] using hcount
    have hc : genCandidate [t] R count = [(t, -1)] := by
      unfold genCandidate
      simp only [List.map_cons, List.map_nil]
      rw [hdig count hcount1]
      norm_num
    rw [hc]
    simp [is_valid_hypothesis]

/-- C10 witness: the cluster produced for a coincident track and report
is the singleton `[0]`, and for cluster `[1]` with one report the
generator retains nothing. -/
theorem clusters_singleton_and_vanishing_hypotheses_witness :
    ([0] ∈ clustersOf [fun _ => 0] [fun _ => 0])
    ∧ (∃ t, [0] = [t])
    ∧ genHypotheses [1] 1 = [] :=
  ⟨by simp [clustersOf, reportCluster, sqDistances, normSq, argminIdx, chi2_sq_pos],
    (clusters_singleton_and_vanishing_hypotheses.1 [fun _ => 0] [fun _ => 0] [0]
      (by simp [clustersOf, reportCluster, sqDistances, normSq, argminIdx, chi2_sq_pos])),
    (clusters_singleton_and_vanishing_hypotheses.2 1 1 (by decide) (by decide)).2⟩

theorem inv3_eq_inv (A : Matrix (Fin 3) (Fin 3) ℚ) : inv3 A = A⁻¹ := by
  unfold inv3
  rw [Matrix.inv_def, Ring.inverse_eq_inv]

/-- C5: `update_step` computes the innovation `Inn = Z - H * Sf` from the
pre-update state vector `Sf` (the predicted `Sp` is not read: replacing
it changes nothing), and performs `S = H * Pf * Hᵀ + R`,
`K = Pf * Hᵀ * S⁻¹`, `Sf ← Sf + K * Inn`, `Pf ← (1 - K * H) * Pf`. -/
theorem update_step_characterization (f : CVFilter) (s : Matrix (Fin 6) (Fin 1) ℚ) :
    f.update_step.Sf
      = f.Sf + f.Pf * f.Hᵀ * (f.H * f.Pf * f.Hᵀ + f.R)⁻¹ * (f.Z - f.H * f.Sf)
    ∧ f.update_step.Pf
      = (1 - f.Pf * f.Hᵀ * (f.H * f.Pf * f.Hᵀ + f.R)⁻¹ * f.H) * f.Pf
    ∧ ({ f with Sp := s } : CVFilter).update_step.Sf = f.update_step.Sf
    ∧ ({ f with Sp := s } : CVFilter).update_step.Pf = f.update_step.Pf := by
  have hassoc : f.H * (f.Pf * f.Hᵀ) = f.H * f.Pf * f.Hᵀ := (Matrix.mul_assoc _ _ _).symm
  refine ⟨?_, ?_, rfl, rfl⟩ <;>
    simp only [CVFilter.update_step, inv3_eq_inv, hassoc]

/-- C6: predicting at the stored measurement time (`dt = 0`) leaves the
predicted state `Sp` equal to the state vector, and changes the
covariance exactly by `+ Q = plant_noise * I`: every diagonal entry grows
by `plant_noise` and off-diagonal entries are unchanged. -/
theorem predict_step_dt_zero (f : CVFilter) :
    (f.predict_step f.Meas_Time).Sp = f.Sf
    ∧ (f.predict_step f.Meas_Time).Pf
        = f.Pf + f.plant_noise • (1 : Matrix (Fin 6) (Fin 6) ℚ)
    ∧ (∀ i : Fin 6, (f.predict_step f.Meas_Time).Pf i i = f.Pf i i + f.plant_noise)
    ∧ (∀ i j : Fin 6, i ≠ j → (f.predict_step f.Meas_Time).Pf i j = f.Pf i j) := by
  have hphi : phiMat 0 = 1 := by
    ext i j
    by_cases h : i = j <;> simp [phiMat, h, Matrix.one_apply]
  have hPf : (f.predict_step f.Meas_Time).Pf
      = f.Pf + f.plant_noise • (1 : Matrix (Fin 6) (Fin 6) ℚ) := by
    simp [CVFilter.predict_step, sub_self, hphi]
  refine ⟨?_, hPf, ?_, ?_⟩
  · simp [CVFilter.predict_step, sub_self, hphi]
  · intro i
    rw [hPf]
    simp [Matrix.add_apply, Matrix.smul_apply, Matrix.one_apply_eq]
  · intro i j hij
    rw [hPf]
    simp [Matrix.add_apply, Matrix.smul_apply, Matrix.one_apply_ne hij]

/-- C6 witness: the dt = 0 prediction at the freshly initialized filter,
off-diagonal entry (0, 1). -/
theorem predict_step_dt_zero_witness :
    ((0 : Fin 6) ≠ (1 : Fin 6))
    ∧ (CVFilter.init.predict_step CVFilter.init.Meas_Time).Pf 0 1 = CVFilter.init.Pf 0 1 :=
  ⟨by decide, (predict_step_dt_zero CVFilter.init).2.2.2 0 1 (by decide)⟩

theorem dotProduct_self_nonneg_q {n : Type} [Fintype n] (x : n → ℚ) : 0 ≤ x ⬝ᵥ x :=
  Finset.sum_nonneg fun i _ => mul_self_nonneg (x i)

theorem symm_shuffle {n : Type} [Fintype n] (P : Matrix n n ℚ) (hP : Pᵀ = P)
    (a b : n → ℚ) : a ⬝ᵥ (P *ᵥ b) = (P *ᵥ a) ⬝ᵥ b := by
  rw [Matrix.dotProduct_mulVec, ← Matrix.mulVec_transpose, hP]

theorem transpose_move {m n : Type} [Fintype m] [Fintype n] (H : Matrix m n ℚ)
    (a : n → ℚ) (b : m → ℚ) : a ⬝ᵥ (Hᵀ *ᵥ b) = (H *ᵥ a) ⬝ᵥ b := by
  rw [Matrix.dotProduct_mulVec, Matrix.vecMul_transpose]

theorem move_left {m n : Type} [Fintype m] [Fintype n] (A : Matrix m n ℚ)
    (a : m → ℚ) (b : n → ℚ) : a ⬝ᵥ (A *ᵥ b) = (Aᵀ *ᵥ a) ⬝ᵥ b := by
  rw [Matrix.dotProduct_mulVec, ← Matrix.mulVec_transpose]

/-- The quadratic form of the update-step covariance `(1 - K H) P` at `x`
decomposes as the form of `P` at `z = x - Hᵀ v` plus the form of `R` at
`v = S⁻¹ H P x`. -/
theorem update_quadratic_decomp (P : Matrix (Fin 6) (Fin 6) ℚ)
    (H : Matrix (Fin 3) (Fin 6) ℚ) (Rm : Matrix (Fin 3) (Fin 3) ℚ)
    (hP : Pᵀ = P) (hRsymm : Rmᵀ = Rm)
    (hdet : (H * (P * Hᵀ) + Rm).det ≠ 0) (x : Fin 6 → ℚ) :
    x ⬝ᵥ (((1 - P * Hᵀ * (H * (P * Hᵀ) + Rm)⁻¹ * H) * P) *ᵥ x)
      = (x - Hᵀ *ᵥ ((H * (P * Hᵀ) + Rm)⁻¹ *ᵥ (H *ᵥ (P *ᵥ x)))) ⬝ᵥ
          (P *ᵥ (x - Hᵀ *ᵥ ((H * (P * Hᵀ) + Rm)⁻¹ *ᵥ (H *ᵥ (P *ᵥ x)))))
        + ((H * (P * Hᵀ) + Rm)⁻¹ *ᵥ (H *ᵥ (P *ᵥ x))) ⬝ᵥ
            (Rm *ᵥ ((H * (P * Hᵀ) + Rm)⁻¹ *ᵥ (H *ᵥ (P *ᵥ x)))) := by
  set S : Matrix (Fin 3) (Fin 3) ℚ := H * (P * Hᵀ) + Rm with hSdef
  have hSunit : IsUnit S.det := isUnit_iff_ne_zero.mpr hdet
  set u : Fin 3 → ℚ := H *ᵥ (P *ᵥ x) with hu
  set v : Fin 3 → ℚ := S⁻¹ *ᵥ u with hv
  have hSv : S *ᵥ v = u := by
    rw [hv, Matrix.mulVec_mulVec, Matrix.mul_nonsing_inv S hSunit, Matrix.one_mulVec]
  clear_value u v
  have hlhs : x ⬝ᵥ (((1 - P * Hᵀ * S⁻¹ * H) * P) *ᵥ x)
      = x ⬝ᵥ (P *ᵥ x) - u ⬝ᵥ v := by
    have hK : ((1 - P * Hᵀ * S⁻¹ * H) * P) *ᵥ x
        = P *ᵥ x - P *ᵥ (Hᵀ *ᵥ v) := by
      rw [Matrix.sub_mul, Matrix.one_mul, Matrix.sub_mulVec, hv, hu]
      congr 1
      simp only [← Matrix.mulVec_mulVec]
    rw [hK, Matrix.dotProduct_sub]
    congr 1
    rw [symm_shuffle P hP x (Hᵀ *ᵥ v), transpose_move H (P *ᵥ x) v, ← hu]
  have e1 : x ⬝ᵥ (P *ᵥ (Hᵀ *ᵥ v)) = u ⬝ᵥ v := by
    rw [symm_shuffle P hP x (Hᵀ *ᵥ v), transpose_move H (P *ᵥ x) v, ← hu]
  have e2 : (Hᵀ *ᵥ v) ⬝ᵥ (P *ᵥ x) = u ⬝ᵥ v := by
    rw [Matrix.dotProduct_comm, transpose_move H (P *ᵥ x) v, ← hu]
  have e3 : (Hᵀ *ᵥ v) ⬝ᵥ (P *ᵥ (Hᵀ *ᵥ v)) = v ⬝ᵥ (S *ᵥ v) - v ⬝ᵥ (Rm *ᵥ v) := by
    have h31 : (Hᵀ *ᵥ v) ⬝ᵥ (P *ᵥ (Hᵀ *ᵥ v)) = v ⬝ᵥ ((H * (P * Hᵀ)) *ᵥ v) := by
      calc (Hᵀ *ᵥ v) ⬝ᵥ (P *ᵥ (Hᵀ *ᵥ v))
          = (Hᵀ *ᵥ v) ⬝ᵥ ((P * Hᵀ) *ᵥ v) := by rw [Matrix.mulVec_mulVec]
        _ = ((P * Hᵀ) *ᵥ v) ⬝ᵥ (Hᵀ *ᵥ v) := Matrix.dotProduct_comm _ _
        _ = (H *ᵥ ((P * Hᵀ) *ᵥ v)) ⬝ᵥ v := transpose_move H _ v
        _ = ((H * (P * Hᵀ)) *ᵥ v) ⬝ᵥ v := by rw [Matrix.mulVec_mulVec]
        _ = v ⬝ᵥ ((H * (P * Hᵀ)) *ᵥ v) := Matrix.dotProduct_comm _ _
    have h32 : v ⬝ᵥ (S *ᵥ v) = v ⬝ᵥ ((H * (P * Hᵀ)) *ᵥ v) + v ⬝ᵥ (Rm *ᵥ v) := by
      rw [hSdef, Matrix.add_mulVec, Matrix.dotProduct_add]
    rw [h31]
    rw [h32]
    ring
  have hrhs : (x - Hᵀ *ᵥ v) ⬝ᵥ (P *ᵥ (x - Hᵀ *ᵥ v)) + v ⬝ᵥ (Rm *ᵥ v)
      = x ⬝ᵥ (P *ᵥ x) - u ⬝ᵥ v := by
    rw [Matrix.mulVec_sub, Matrix.sub_dotProduct, Matrix.dotProduct_sub,
      Matrix.dotProduct_sub, e1, e2, e3, hSv, Matrix.dotProduct_comm v u]
    ring
  rw [hlhs, hrhs]

theorem update_cov_symm (P : Matrix (Fin 6) (Fin 6) ℚ)
    (H : Matrix (Fin 3) (Fin 6) ℚ) (Rm : Matrix (Fin 3) (Fin 3) ℚ)
    (hP : Pᵀ = P) (hRsymm : Rmᵀ = Rm) :
    (((1 - P * Hᵀ * (H * (P * Hᵀ) + Rm)⁻¹ * H) * P))ᵀ
      = (1 - P * Hᵀ * (H * (P * Hᵀ) + Rm)⁻¹ * H) * P := by
  set S : Matrix (Fin 3) (Fin 3) ℚ := H * (P * Hᵀ) + Rm with hSdef
  have hSsymm : Sᵀ = S := by
    rw [hSdef]
    simp only [Matrix.transpose_add, Matrix.transpose_mul, Matrix.transpose_transpose, hP,
      hRsymm, Matrix.mul_assoc]
  have hSinvsymm : (S⁻¹)ᵀ = S⁻¹ := by
    rw [Matrix.transpose_nonsing_inv, hSsymm]
  simp only [Matrix.sub_mul, Matrix.mul_sub, Matrix.one_mul, Matrix.mul_one,
    Matrix.transpose_sub, Matrix.transpose_mul, Matrix.transpose_transpose, hP, hSinvsymm,
    Matrix.mul_assoc]

/-- C8: if the covariance is symmetric positive semi-definite, the
measurement noise `R` is symmetric positive semi-definite, the plant
noise is nonnegative and the innovation covariance `S` is nonsingular,
then the covariance is again symmetric positive semi-definite after
`predict_step` and after `update_step`. -/
theorem covariance_symm_psd_preserved (f : CVFilter) (t : ℚ)
    (hq : 0 ≤ f.plant_noise) (hPf : symmPSD f.Pf)
    (hRsymm : f.Rᵀ = f.R) (hRpsd : ∀ y : Fin 3 → ℚ, 0 ≤ y ⬝ᵥ f.R *ᵥ y)
    (hdet : (f.H * (f.Pf * f.Hᵀ) + f.R).det ≠ 0) :
    symmPSD (f.predict_step t).Pf ∧ symmPSD f.update_step.Pf := by
  have hpredict : (f.predict_step t).Pf
      = phiMat (t - f.Meas_Time) * f.Pf * (phiMat (t - f.Meas_Time))ᵀ
        + f.plant_noise • 1 := rfl
  constructor
  · constructor
    · rw [hpredict]
      simp only [Matrix.transpose_add, Matrix.transpose_mul, Matrix.transpose_transpose,
        Matrix.transpose_smul, Matrix.transpose_one, hPf.1, Matrix.mul_assoc]
    · intro x
      rw [hpredict]
      set Phi := phiMat (t - f.Meas_Time) with hPhi
      rw [Matrix.add_mulVec, Matrix.dotProduct_add]
      have h1 : x ⬝ᵥ ((Phi * f.Pf * Phiᵀ) *ᵥ x)
          = (Phiᵀ *ᵥ x) ⬝ᵥ (f.Pf *ᵥ (Phiᵀ *ᵥ x)) := by
        simp only [← Matrix.mulVec_mulVec]
        rw [move_left Phi x (f.Pf *ᵥ (Phiᵀ *ᵥ x))]
      have h2 : x ⬝ᵥ ((f.plant_noise • (1 : Matrix (Fin 6) (Fin 6) ℚ)) *ᵥ x)
          = f.plant_noise * (x ⬝ᵥ x) := by
        rw [Matrix.smul_mulVec_assoc, Matrix.one_mulVec, Matrix.dotProduct_smul]
        rfl
      rw [h1, h2]
      have := hPf.2 (Phiᵀ *ᵥ x)
      have h3 : 0 ≤ f.plant_noise * (x ⬝ᵥ x) :=
        mul_nonneg hq (dotProduct_self_nonneg_q x)
      linarith
  · have hPfEq : f.update_step.Pf
        = (1 - f.Pf * f.Hᵀ * (f.H * (f.Pf * f.Hᵀ) + f.R)⁻¹ * f.H) * f.Pf := by
      show (1 - f.Pf * f.Hᵀ * inv3 (f.H * (f.Pf * f.Hᵀ) + f.R) * f.H) * f.Pf = _
      rw [inv3_eq_inv]
    constructor
    · rw [hPfEq]
      exact update_cov_symm f.Pf f.H f.R hPf.1 hRsymm
    · intro x
      rw [hPfEq, update_quadratic_decomp f.Pf f.H f.R hPf.1 hRsymm hdet x]
      have hz := hPf.2 (x - f.Hᵀ *ᵥ ((f.H * (f.Pf * f.Hᵀ) + f.R)⁻¹ *ᵥ (f.H *ᵥ (f.Pf *ᵥ x))))
      have hv := hRpsd ((f.H * (f.Pf * f.Hᵀ) + f.R)⁻¹ *ᵥ (f.H *ᵥ (f.Pf *ᵥ x)))
      linarith

-- witness helpers
theorem symmPSD_one : symmPSD (1 : Matrix (Fin 6) (Fin 6) ℚ) := by
  constructor
  · exact Matrix.transpose_one
  · intro x
    rw [Matrix.one_mulVec]
    exact dotProduct_self_nonneg_q x

theorem eye36_mul_transpose : eye36 * eye36ᵀ = (1 : Matrix (Fin 3) (Fin 3) ℚ) := by
  ext i j
  fin_cases i <;> fin_cases j <;>
    norm_num [eye36, Matrix.mul_apply, Fin.sum_univ_six, Matrix.one_apply,
      Fin.ext_iff,
      show ((0 : Fin 6) : ℕ) = 0 from rfl, show ((1 : Fin 6) : ℕ) = 1 from rfl,
      show ((2 : Fin 6) : ℕ) = 2 from rfl, show ((3 : Fin 6) : ℕ) = 3 from rfl,
      show ((4 : Fin 6) : ℕ) = 4 from rfl, show ((5 : Fin 6) : ℕ) = 5 from rfl]

theorem init_det_ne_zero :
    (CVFilter.init.H * (CVFilter.init.Pf * CVFilter.init.Hᵀ) + CVFilter.init.R).det ≠ 0 := by
  have h1 : CVFilter.init.H = eye36 := rfl
  have h2 : CVFilter.init.Pf = 1 := rfl
  have h3 : CVFilter.init.R = 1 := rfl
  rw [h1, h2, h3, Matrix.one_mul, eye36_mul_transpose]
  have h2 : (1 + 1 : Matrix (Fin 3) (Fin 3) ℚ) = (2 : ℚ) • 1 := by
    ext i j
    by_cases h : i = j <;>
      norm_num [Matrix.add_apply, Matrix.smul_apply, Matrix.one_apply, h]
  rw [h2, Matrix.det_smul, Matrix.det_one]
  norm_num


/-- C8 witness: applying the preservation theorem to the freshly
initialized filter (identity covariance, identity measurement noise,
plant noise 20) at prediction time 5. -/
theorem covariance_symm_psd_preserved_witness :
    (0 : ℚ) ≤ CVFilter.init.plant_noise
    ∧ symmPSD (CVFilter.init.predict_step 5).Pf
    ∧ symmPSD CVFilter.init.update_step.Pf :=
  ⟨by norm_num [CVFilter.init],
    (covariance_symm_psd_preserved CVFilter.init 5 (by norm_num [CVFilter.init]) symmPSD_one
      Matrix.transpose_one
      (fun y => by
        rw [show CVFilter.init.R = 1 from rfl, Matrix.one_mulVec]
        exact dotProduct_self_nonneg_q y)
      init_det_ne_zero).1,
    (covariance_symm_psd_preserved CVFilter.init 5 (by norm_num [CVFilter.init]) symmPSD_one
      Matrix.transpose_one
      (fun y => by
        rw [show CVFilter.init.R = 1 from rfl, Matrix.one_mulVec]
        exact dotProduct_self_nonneg_q y)
      init_det_ne_zero).2⟩

theorem hypothesisProb_foldl (tracks reports : List Vec3)
    (cov_inv : Matrix (Fin 3) (Fin 3) ℚ) :
    ∀ (h : List (ℕ × ℤ)) (c : ℝ),
      h.foldl
          (fun prob p =>
            if p.2 ≠ -1 then
              prob * Real.exp (-0.5 *
                mahalanobis_distance (tracks.getD p.1 0) (reports.getD p.2.toNat 0) cov_inv ^ 2)
            else prob)
          c
        = c * ((h.filter fun p => p.2 ≠ -1).map fun p =>
            Real.exp (-0.5 *
              mahalanobis_distance (tracks.getD p.1 0) (reports.getD p.2.toNat 0)
                cov_inv ^ 2)).prod := by
  intro h
  induction h with
  | nil =>
    intro c
    simp
  | cons p t ih =>
    intro c
    by_cases hp : p.2 ≠ -1
    · rw [List.foldl_cons, if_pos hp, List.filter_cons_of_pos (by simpa using hp),
        List.map_cons, List.prod_cons, ih]
      ring
    · rw [List.foldl_cons, if_neg hp, List.filter_cons_of_neg (by simpa using hp), ih]

theorem hypothesisProb_pos (tracks reports : List Vec3)
    (cov_inv : Matrix (Fin 3) (Fin 3) ℚ) (h : List (ℕ × ℤ)) :
    0 < hypothesisProb tracks reports cov_inv h := by
  unfold hypothesisProb
  rw [hypothesisProb_foldl, one_mul]
  apply List.prod_pos
  intro x hx
  obtain ⟨p, _, rfl⟩ := List.mem_map.mp hx
  exact Real.exp_pos _

theorem sum_map_div (l : List ℝ) (s : ℝ) : (l.map fun p => p / s).sum = l.sum / s := by
  induction l with
  | nil => simp
  | cons a t ih => simp [ih, add_div]

/-- C3: each hypothesis's probability is the product, over its assigned
(track, report) pairs, of `exp(-0.5 * d^2)` with `d` the Mahalanobis
distance of the pair (unassigned entries contribute factor 1); and for a
non-empty hypothesis set the normalized probabilities sum to 1. -/
theorem probabilities_product_and_normalized (tracks reports : List Vec3)
    (cov_inv : Matrix (Fin 3) (Fin 3) ℚ) :
    (∀ h : List (ℕ × ℤ), hypothesisProb tracks reports cov_inv h
        = ((h.filter fun p => p.2 ≠ -1).map fun p =>
            Real.exp (-0.5 *
              mahalanobis_distance (tracks.getD p.1 0) (reports.getD p.2.toNat 0)
                cov_inv ^ 2)).prod)
    ∧ ∀ hypotheses : List (List (ℕ × ℤ)), hypotheses ≠ [] →
        (calculate_probabilities hypotheses tracks reports cov_inv).sum = 1 := by
  constructor
  · intro h
    unfold hypothesisProb
    rw [hypothesisProb_foldl, one_mul]
  · intro hypotheses hne
    have hmapne : hypotheses.map (hypothesisProb tracks reports cov_inv) ≠ [] := by
      simpa using hne
    have hpos : ∀ p ∈ hypotheses.map (hypothesisProb tracks reports cov_inv), 0 < p := by
      intro p hp
      obtain ⟨h, _, rfl⟩ := List.mem_map.mp hp
      exact hypothesisProb_pos tracks reports cov_inv h
    have hsum : 0 < (hypotheses.map (hypothesisProb tracks reports cov_inv)).sum :=
      List.sum_pos _ hpos hmapne
    show ((hypotheses.map (hypothesisProb tracks reports cov_inv)).map
        fun p => p / (hypotheses.map (hypothesisProb tracks reports cov_inv)).sum).sum = 1
    rw [sum_map_div, div_self (ne_of_gt hsum)]

/-- C3 witness: a single track, single report and the single hypothesis
assigning the report to the track. -/
theorem probabilities_product_and_normalized_witness :
    ([[((0 : ℕ), (0 : ℤ))]] ≠ ([] : List (List (ℕ × ℤ))))
    ∧ (calculate_probabilities [[((0 : ℕ), (0 : ℤ))]] [fun _ => 0] [![1, 0, 0]] 1).sum = 1 :=
  ⟨by simp,
    (probabilities_product_and_normalized [fun _ => 0] [![1, 0, 0]] 1).2
      [[((0 : ℕ), (0 : ℤ))]] (by simp)⟩

/-- C4: the normalization in `calculate_probabilities` is *not* guarded:
for every input it divides by the sum of the raw scores unconditionally
(conjunct 1).  In this exact-arithmetic model every hypothesis scores a
strictly positive probability (conjunct 4), so a zero sum occurs exactly
for an empty hypothesis list, for which the division produces the empty
list and the resolver reports every report as unassociated (`-1`) with
probability `0` (conjuncts 2 and 3); the all-zero case the claim is
about arises in the float64 program through underflow of
`np.exp(-0.5 * d ** 2)`, where the unguarded division yields NaN. -/
theorem calculate_probabilities_unguarded (tracks reports : List Vec3)
    (cov_inv : Matrix (Fin 3) (Fin 3) ℚ) :
    (∀ hypotheses : List (List (ℕ × ℤ)),
      calculate_probabilities hypotheses tracks reports cov_inv
        = (hypotheses.map (hypothesisProb tracks reports cov_inv)).map
            (fun p => p / (hypotheses.map (hypothesisProb tracks reports cov_inv)).sum))
    ∧ calculate_probabilities [] tracks reports cov_inv = []
    ∧ find_max_associations [] (calculate_probabilities [] tracks reports cov_inv) reports
        = (List.replicate reports.length (-1), List.replicate reports.length 0)
    ∧ ∀ h : List (ℕ × ℤ), 0 < hypothesisProb tracks reports cov_inv h :=
  ⟨fun _ => rfl, rfl, rfl, hypothesisProb_pos tracks reports cov_inv⟩

theorem atan2_scaled (c θ : ℝ) (hc : 0 < c) (hθ : θ ∈ Set.Ioc (-Real.pi) Real.pi) :
    atan2 (c * Real.sin θ) (c * Real.cos θ) = θ := by
  unfold atan2
  have hco : ((c * Real.cos θ : ℝ) : ℂ) + ((c * Real.sin θ : ℝ) : ℂ) * Complex.I
      = (c : ℂ) * ((Real.cos θ : ℂ) + (Real.sin θ : ℂ) * Complex.I) := by
    push_cast
    ring
  rw [hco, Complex.arg_real_mul _ hc, Complex.ofReal_cos, Complex.ofReal_sin,
    Complex.arg_cos_add_sin_mul_I hθ]

theorem roundtrip_core (az el r : ℝ) (hr : 0 < r)
    (hel1 : -90 < el) (hel2 : el < 90) (haz1 : 0 ≤ az) (haz2 : az < 360) :
    cart2sph (r * Real.cos (el * Real.pi / 180) * Real.sin (az * Real.pi / 180))
        (r * Real.cos (el * Real.pi / 180) * Real.cos (az * Real.pi / 180))
        (r * Real.sin (el * Real.pi / 180))
      = (r, if az ≤ 90 then 90 - az else 450 - az, el) := by
  have hpi := Real.pi_pos
  set e := el * Real.pi / 180 with he
  set a := az * Real.pi / 180 with ha
  have helm : -90 * Real.pi < el * Real.pi :=
    mul_lt_mul_of_pos_right (by linarith) hpi
  have helM : el * Real.pi < 90 * Real.pi :=
    mul_lt_mul_of_pos_right hel2 hpi
  have hazm : 0 ≤ az * Real.pi := mul_nonneg haz1 hpi.le
  have hazM : az * Real.pi < 360 * Real.pi :=
    mul_lt_mul_of_pos_right haz2 hpi
  have hce : 0 < Real.cos e := by
    apply Real.cos_pos_of_mem_Ioo
    constructor
    · rw [he]
      linarith
    · rw [he]
      linarith
  set c := r * Real.cos e with hcdef
  have hc : 0 < c := mul_pos hr hce
  set x := c * Real.sin a with hx
  set y := c * Real.cos a with hy
  set z := r * Real.sin e with hz
  have hxy : x ^ 2 + y ^ 2 = c ^ 2 := by
    rw [hx, hy]
    linear_combination (c ^ 2) * Real.sin_sq_add_cos_sq a
  have hsq : Real.sqrt (x ^ 2 + y ^ 2) = c := by
    rw [hxy, Real.sqrt_sq hc.le]
  have hr2 : x ^ 2 + y ^ 2 + z ^ 2 = r ^ 2 := by
    rw [hxy, hz, hcdef]
    linear_combination (r ^ 2) * Real.sin_sq_add_cos_sq e
  have hrr : Real.sqrt (x ^ 2 + y ^ 2 + z ^ 2) = r := by
    rw [hr2, Real.sqrt_sq hr.le]
  have hel' : atan2 z (Real.sqrt (x ^ 2 + y ^ 2)) = e := by
    rw [hsq, hz, hcdef]
    apply atan2_scaled r e hr
    constructor
    · rw [he]
      linarith
    · rw [he]
      linarith
  have hel2' : e * 180 / Real.pi = el := by
    rw [he]
    field_simp
  have haz' : ∀ θ : ℝ, Real.sin a = Real.cos θ → Real.cos a = Real.sin θ →
      θ ∈ Set.Ioc (-Real.pi) Real.pi → atan2 y x = θ := by
    intro θ h1 h2 hmem
    rw [hx, hy, h1, h2]
    exact atan2_scaled c θ hc hmem
  have hout : cart2sph x y z = (Real.sqrt (x ^ 2 + y ^ 2 + z ^ 2),
      if atan2 y x * 180 / Real.pi < 0 then atan2 y x * 180 / Real.pi + 360
      else atan2 y x * 180 / Real.pi,
      atan2 z (Real.sqrt (x ^ 2 + y ^ 2)) * 180 / Real.pi) := rfl
  rw [hout, hrr, hel', hel2']
  rcases le_or_lt az 90 with h90 | h90
  · have h90pi : az * Real.pi ≤ 90 * Real.pi :=
      mul_le_mul_of_nonneg_right h90 hpi.le
    have hθ : atan2 y x = Real.pi / 2 - a := by
      apply haz'
      · rw [Real.cos_pi_div_two_sub]
      · rw [Real.sin_pi_div_two_sub]
      · constructor
        · rw [ha]
          linarith
        · rw [ha]
          linarith
    have hval : (Real.pi / 2 - a) * 180 / Real.pi = 90 - az := by
      rw [ha]
      field_simp
      ring
    rw [hθ, hval, if_neg (by linarith), if_pos h90]
  · rcases lt_or_le az 270 with h270 | h270
    · have h270pi : az * Real.pi < 270 * Real.pi :=
        mul_lt_mul_of_pos_right h270 hpi
      have hθ : atan2 y x = Real.pi / 2 - a := by
        apply haz'
        · rw [Real.cos_pi_div_two_sub]
        · rw [Real.sin_pi_div_two_sub]
        · constructor
          · rw [ha]
            linarith
          · rw [ha]
            linarith
      have hval : (Real.pi / 2 - a) * 180 / Real.pi = 90 - az := by
        rw [ha]
        field_simp
        ring
      rw [hθ, hval, if_pos (by linarith), if_neg (by linarith)]
      exact congrArg (fun v => (r, v, el)) (by ring)
    · have h270pi : 270 * Real.pi ≤ az * Real.pi :=
        mul_le_mul_of_nonneg_right h270 hpi.le
      have hθ : atan2 y x = 5 * Real.pi / 2 - a := by
        apply haz'
        · rw [show 5 * Real.pi / 2 - a = Real.pi / 2 - a + 2 * Real.pi from by ring,
            Real.cos_add_two_pi, Real.cos_pi_div_two_sub]
        · rw [show 5 * Real.pi / 2 - a = Real.pi / 2 - a + 2 * Real.pi from by ring,
            Real.sin_add_two_pi, Real.sin_pi_div_two_sub]
        · constructor
          · rw [ha]
            linarith
          · rw [ha]
            linarith
      have hval : (5 * Real.pi / 2 - a) * 180 / Real.pi = 450 - az := by
        rw [ha]
        field_simp
        ring
      rw [hθ, hval, if_neg (by linarith), if_neg (by linarith)]

/-- C9 (amended): for `r > 0`, elevation in `(-90, 90)` and azimuth in
`[0, 360)`, the round trip `cart2sph (sph2cart az el r)` reproduces the
range and the elevation exactly, but returns the azimuth
`(90 - az) mod 360` (normalized into `[0, 360)`): `sph2cart` uses the
compass convention (`x` from `sin az`, `y` from `cos az`) while
`cart2sph` computes `atan2(y, x)` in the mathematical convention.  The
azimuth itself is reproduced exactly when `az` is 45 or 225 degrees. -/
theorem roundtrip_claim (az el r : ℝ) (hr : 0 < r)
    (hel1 : -90 < el) (hel2 : el < 90) (haz1 : 0 ≤ az) (haz2 : az < 360) :
    cart2sph (sph2cart az el r).1 (sph2cart az el r).2.1 (sph2cart az el r).2.2
        = (r, if az ≤ 90 then 90 - az else 450 - az, el)
    ∧ (0 ≤ (if az ≤ 90 then 90 - az else (450 : ℝ) - az)
        ∧ (if az ≤ 90 then 90 - az else (450 : ℝ) - az) < 360)
    ∧ ((if az ≤ 90 then 90 - az else (450 : ℝ) - az) = az ↔ az = 45 ∨ az = 225) := by
  refine ⟨roundtrip_core az el r hr hel1 hel2 haz1 haz2, ?_, ?_⟩
  · rcases le_or_lt az 90 with h | h
    · rw [if_pos h]
      exact ⟨by linarith, by linarith⟩
    · rw [if_neg (not_le.mpr h)]
      exact ⟨by linarith, by linarith⟩
  · rcases le_or_lt az 90 with h | h
    · rw [if_pos h]
      constructor
      · intro hEq
        left
        linarith
      · intro hEq
        rcases hEq with h45 | h225 <;> linarith
    · rw [if_neg (not_le.mpr h)]
      constructor
      · intro hEq
        right
        linarith
      · intro hEq
        rcases hEq with h45 | h225 <;> linarith

/-- C9 counterexample: the spherical triple `(range, az, el) = (1, 30, 0)`
comes back from the round trip with azimuth 60, not 30. -/
theorem roundtrip_counterexample :
    (cart2sph (sph2cart 30 0 1).1 (sph2cart 30 0 1).2.1 (sph2cart 30 0 1).2.2).2.1 = 60
    ∧ ((60 : ℝ) ≠ 30) := by
  have h2 : cart2sph (sph2cart 30 0 1).1 (sph2cart 30 0 1).2.1 (sph2cart 30 0 1).2.2
      = ((1 : ℝ), if (30 : ℝ) ≤ 90 then 90 - 30 else 450 - 30, (0 : ℝ)) :=
    roundtrip_core 30 0 1 (by norm_num) (by norm_num) (by norm_num) (by norm_num) (by norm_num)
  constructor
  · rw [h2]
    norm_num
  · norm_num

/-- C9 witness: the amended round trip at `(range, az, el) = (2, 100, 45)`. -/
theorem roundtrip_claim_witness :
    ((0 : ℝ) < 2)
    ∧ cart2sph (sph2cart 100 45 2).1 (sph2cart 100 45 2).2.1 (sph2cart 100 45 2).2.2
        = (2, if (100 : ℝ) ≤ 90 then 90 - 100 else 450 - 100, 45) :=
  ⟨by norm_num,
    (roundtrip_claim 100 45 2 (by norm_num) (by norm_num) (by norm_num) (by norm_num)
      (by norm_num)).1⟩
